import Mathlib

set_option maxHeartbeats 1000000

/-! Shallow embedding of the core of the H2Q thermodynamic error-mitigation
repository: the hysteresis syndrome filter (class H2QFilter of
tools/analyze_ibm_qec_fp_job.py), the population-threshold distribution
filter and entropy-based confidence margin (class H2QMitigator of
src/h2q_mitigation.py), and the observable computation (compute_observable
of src/run_benchmark.py).  Python floats are modelled as rationals where the
code only adds, multiplies, divides and compares, and as reals where
logarithms and square roots appear. -/

/-- Per-channel state of the hysteresis filter.  The Python class keeps three
parallel lists state, dwell, ema; one channel owns one slot of each.
INACTIVE is false and ACTIVE is true (the Python code uses the integers 0
and 1). -/
structure Channel where
  state : Bool
  dwell : Nat
  ema : ℚ

/-- Exponential moving-average update performed first in H2QFilter.update:
ema[j] = (1 - ema_alpha) * ema[j] + ema_alpha * bit. -/
def emaStep (alpha ema bit : ℚ) : ℚ := (1 - alpha) * ema + alpha * bit

/-- Hysteresis transition applied to one channel after its EMA has been
updated to P; this is the body of the per-channel loop of H2QFilter.update.
An INACTIVE channel accumulates dwell credit while P is at least theta_on
and activates once the credit reaches tau; an ACTIVE channel falls back to
INACTIVE as soon as P is at most theta_off. -/
def hysteresisStep (thetaOn thetaOff : ℚ) (tau : Nat) (st : Bool) (dw : Nat) (P : ℚ) :
    Bool × Nat :=
  if st = false then
    if thetaOn ≤ P then
      if tau ≤ dw + 1 then (true, 0) else (false, dw + 1)
    else (false, 0)
  else
    if P ≤ thetaOff then (false, 0) else (st, dw)

/-- One full update of a single channel: the EMA update followed by the
hysteresis transition, exactly the effect of one H2QFilter.update call on
one channel. -/
def stepChannel (thetaOn thetaOff : ℚ) (tau : Nat) (alpha : ℚ) (ch : Channel) (bit : ℚ) :
    Channel :=
  let P := emaStep alpha ch.ema bit
  let r := hysteresisStep thetaOn thetaOff tau ch.state ch.dwell P
  ⟨r.1, r.2, P⟩

/-- Iterated updates of one channel over a stream of observations. -/
def runChannel (thetaOn thetaOff : ℚ) (tau : Nat) (alpha : ℚ) (ch : Channel)
    (obs : List ℚ) : Channel :=
  obs.foldl (stepChannel thetaOn thetaOff tau alpha) ch

/-- The H2QFilter object of tools/analyze_ibm_qec_fp_job.py: the thresholds,
the dwell requirement and the per-stabilizer parallel state lists. -/
structure H2QFilter where
  theta_on : ℚ
  theta_off : ℚ
  tau : Nat
  num_stabilizers : Nat
  state : List Bool
  dwell : List Nat
  ema_alpha : ℚ
  ema : List ℚ

/-- Constructor H2QFilter.__init__: it stores the thresholds unchanged (no
validation of theta_off < theta_on appears anywhere in the code) and
initializes two INACTIVE channels with zero dwell count and zero EMA. -/
def mkH2QFilter (theta_on theta_off : ℚ) (tau : Nat) : H2QFilter :=
  { theta_on := theta_on, theta_off := theta_off, tau := tau
    num_stabilizers := 2
    state := List.replicate 2 false
    dwell := List.replicate 2 0
    ema_alpha := 1/10
    ema := List.replicate 2 0 }

/-- Method H2QFilter.reset: reinitializes every per-channel list. -/
def H2QFilter.reset (f : H2QFilter) : H2QFilter :=
  { f with state := List.replicate f.num_stabilizers false
           dwell := List.replicate f.num_stabilizers 0
           ema := List.replicate f.num_stabilizers 0 }

/-- First loop of H2QFilter.update: for j, bit in enumerate(raw_syndrome),
set ema[j] = (1 - alpha) * ema[j] + alpha * bit.  EMA entries beyond the
length of the input keep their old value; input entries beyond the length of
the EMA list are the ones on which Python raises IndexError, after the
existing entries have already been overwritten. -/
def updateEmaList (alpha : ℚ) : List ℚ → List ℚ → List ℚ
  | ema, [] => ema
  | [], _ :: _ => []
  | e :: es, b :: bs => emaStep alpha e b :: updateEmaList alpha es bs

/-- Second loop of H2QFilter.update: one hysteresis transition per
stabilizer, consuming the parallel lists of states, dwell counters and
already-updated EMA values (all of length num_stabilizers for every filter
built by the constructor). -/
def channelLoop (thetaOn thetaOff : ℚ) (tau : Nat) :
    List Bool → List Nat → List ℚ → List (Bool × Nat)
  | st :: sts, dw :: dws, P :: Ps =>
      hysteresisStep thetaOn thetaOff tau st dw P ::
        channelLoop thetaOn thetaOff tau sts dws Ps
  | _, _, _ => []

/-- Method H2QFilter.update.  The only failure the code can signal is the
uncaught IndexError raised by the EMA loop when the input is longer than the
EMA list; the error payload records the filter as the exception leaves it,
with every existing channel's EMA already overwritten.  On success the
returned filtered bit vector is the new per-channel state vector. -/
def H2QFilter.update (f : H2QFilter) (raw_syndrome : List ℚ) :
    Except H2QFilter (H2QFilter × List Bool) :=
  let ema' := updateEmaList f.ema_alpha f.ema raw_syndrome
  if f.ema.length < raw_syndrome.length then
    .error { f with ema := ema' }
  else
    let rs := channelLoop f.theta_on f.theta_off f.tau f.state f.dwell ema'
    .ok ({ f with state := rs.map Prod.fst, dwell := rs.map Prod.snd, ema := ema' },
         rs.map Prod.fst)

/-- The H2QMitigator object of src/h2q_mitigation.py.  Its constructor
stores the three parameters unchanged; the code performs no range or
ordering validation on them. -/
structure H2QMitigator where
  theta_on : ℚ
  theta_off : ℚ
  tau : Nat

/-- Constructor H2QMitigator.__init__. -/
def mkH2QMitigator (theta_on theta_off : ℚ) (tau : Nat) : H2QMitigator :=
  { theta_on := theta_on, theta_off := theta_off, tau := tau }

/-- Largest count of a histogram, the code's
sorted(raw_counts.items(), key=count, reverse=True)[0][1].  Histograms are
association lists in Python dict iteration order.  The fold returns 0 on the
empty list, on which the Python expression would instead raise. -/
def maxCountQ (h : List (String × ℚ)) : ℚ := (h.map Prod.snd).foldr max 0

/-- Body of H2QMitigator.minimize_free_energy over exact rationals: retain
an entry iff its population relative to the maximum count strictly exceeds
theta_off, then renormalize the retained counts by their sum. -/
def minimizeFreeEnergyQ (theta_off : ℚ) (h : List (String × ℚ)) : List (String × ℚ) :=
  let m := maxCountQ h
  let fd := h.filter (fun kv => decide (theta_off < kv.2 / m))
  let nt := (fd.map Prod.snd).sum
  fd.map (fun kv => (kv.1, kv.2 / nt))

/-- Method H2QMitigator.minimize_free_energy: raw integer counts in,
mitigated probability distribution out. -/
def H2QMitigator.minimize_free_energy (self : H2QMitigator)
    (raw_counts : List (String × Nat)) : List (String × ℚ) :=
  minimizeFreeEnergyQ self.theta_off (raw_counts.map (fun kv => (kv.1, (kv.2 : ℚ))))

/-- Method H2QMitigator.apply_correction, a direct wrapper around
minimize_free_energy. -/
def H2QMitigator.apply_correction (self : H2QMitigator)
    (raw_counts : List (String × Nat)) : List (String × ℚ) :=
  self.minimize_free_energy raw_counts

/-- Method H2QMitigator.calculate_confidence_intervals: a Shannon-entropy
based symmetric margin computed from the values of the mitigated
distribution.  The method reads no field of self.  The generator expression
of the entropy sums p * log2 p only over entries with p > 0. -/
noncomputable def H2QMitigator.calculate_confidence_intervals
    (_self : H2QMitigator) (mitigated_probs : List ℝ) : ℝ × ℝ :=
  if mitigated_probs.isEmpty then (0, 1)
  else
    let entropy : ℝ :=
      -((mitigated_probs.map (fun p => if 0 < p then p * Real.logb 2 p else 0)).sum)
    let max_entropy : ℝ :=
      if 1 < mitigated_probs.length then Real.logb 2 (mitigated_probs.length : ℝ) else 1
    let confidence : ℝ := if 0 < max_entropy then 1 - entropy / max_entropy else 1
    let error_margin : ℝ := (1 - confidence) * (1 / 2)
    (error_margin, error_margin)

/-- Numeric value of one character of a measurement label, Python int(c)
for the digit characters that appear in bitstring labels. -/
def charToNatDigit (c : Char) : Nat := c.toNat - 48

/-- Factor (-1)^bit contributed by qubit q to the parity of a label in
compute_observable of src/run_benchmark.py: the bit is read from position
-(q+1) of the bitstring (little-endian), and the factor is skipped entirely
(contributing 1) whenever q is not below the length of the bitstring. -/
def parityFactor (bitstring : String) (q : Nat) : ℤ :=
  if q < bitstring.length then
    (-1) ^ charToNatDigit (bitstring.data.getD (bitstring.length - 1 - q) '0')
  else 1

/-- Parity product over all observable qubits for one label. -/
def labelParity (bitstring : String) (observable_qubits : List Nat) : ℤ :=
  (observable_qubits.map (parityFactor bitstring)).prod

/-- Expectation part of compute_observable: the sum of parity * count over
the counts dictionary, divided by the total count. -/
def computeExpectation (counts : List (String × Nat)) (observable_qubits : List Nat) : ℚ :=
  let total : Nat := (counts.map Prod.snd).sum
  ((counts.map (fun kv => ((labelParity kv.1 observable_qubits : ℚ)) * (kv.2 : ℚ))).sum)
    / (total : ℚ)

/-- Function compute_observable of src/run_benchmark.py: it returns the
default pair (0.0, 1.0) when the total count is zero, and otherwise the
expectation together with the standard error sqrt((1 - expectation^2) /
total).  No branch of the code raises. -/
noncomputable def compute_observable (counts : List (String × Nat))
    (observable_qubits : List Nat) : ℝ × ℝ :=
  let total : Nat := (counts.map Prod.snd).sum
  if total = 0 then (0, 1)
  else
    let expectation : ℝ := ((computeExpectation counts observable_qubits : ℚ) : ℝ)
    (expectation, Real.sqrt ((1 - expectation ^ 2) / (total : ℝ)))

/-- States of the filter reachable from construction through reset calls and
successful update calls whose input has exactly the configured number of
channels. -/
inductive ReachableH2Q (theta_on theta_off : ℚ) (tau : Nat) : H2QFilter → Prop
  | init : ReachableH2Q theta_on theta_off tau (mkH2QFilter theta_on theta_off tau)
  | reset (f : H2QFilter) : ReachableH2Q theta_on theta_off tau f →
      ReachableH2Q theta_on theta_off tau f.reset
  | update_ok (f f' : H2QFilter) (raw : List ℚ) (out : List Bool) :
      ReachableH2Q theta_on theta_off tau f →
      raw.length = f.num_stabilizers →
      f.update raw = .ok (f', out) →
      ReachableH2Q theta_on theta_off tau f'

/-- Reference formulation of confidenceMargin following the specification
text: Shannon entropy with p = 0 terms excluded, H_max of log2 of the entry
count with the single-entry fallback of 1, confidence clamped to the unit
interval with the H_max = 0 fallback, and a symmetric margin pair of
(1 - confidence) * 0.5.  Stated only to be compared with the code's
calculate_confidence_intervals. -/
noncomputable def confidenceMarginSpec (distribution : List ℝ) : ℝ × ℝ :=
  let H : ℝ := -((distribution.map (fun p => if p = 0 then 0 else p * Real.logb 2 p)).sum)
  let Hmax : ℝ := if distribution.length = 1 then 1 else Real.logb 2 (distribution.length : ℝ)
  let confidence : ℝ := if Hmax = 0 then 1 else max 0 (min 1 (1 - H / Hmax))
  ((1 - confidence) * (1/2), (1 - confidence) * (1/2))

example : emaStep (1/10) 0 1 = 1/10 := by norm_num [emaStep]

example :
    (mkH2QFilter (8/10) (3/10) 10).update [1, 1] =
      .ok ({ mkH2QFilter (8/10) (3/10) 10 with ema := [1/10, 1/10] }, [false, false]) := by
  norm_num [H2QFilter.update, mkH2QFilter, updateEmaList, channelLoop, hysteresisStep,
    emaStep, List.replicate]

example :
    (mkH2QMitigator (8/10) (1/2) 10).minimize_free_energy [("00", 100), ("11", 90)] =
      [("00", 100/190), ("11", 90/190)] := by
  norm_num [H2QMitigator.minimize_free_energy, mkH2QMitigator, minimizeFreeEnergyQ,
    maxCountQ, List.filter]

theorem stepChannel_ema (thetaOn thetaOff : ℚ) (tau : Nat) (alpha : ℚ)
    (ch : Channel) (bit : ℚ) :
    (stepChannel thetaOn thetaOff tau alpha ch bit).ema = emaStep alpha ch.ema bit := rfl

theorem runChannel_cons (thetaOn thetaOff : ℚ) (tau : Nat) (alpha : ℚ)
    (ch : Channel) (b : ℚ) (obs : List ℚ) :
    runChannel thetaOn thetaOff tau alpha ch (b :: obs) =
      runChannel thetaOn thetaOff tau alpha (stepChannel thetaOn thetaOff tau alpha ch b) obs :=
  rfl

theorem stepChannel_active_stay (thetaOn thetaOff : ℚ) (tau : Nat) (alpha : ℚ)
    (ch : Channel) (bit : ℚ) (hact : ch.state = true)
    (h : thetaOff < emaStep alpha ch.ema bit) :
    stepChannel thetaOn thetaOff tau alpha ch bit =
      ⟨true, ch.dwell, emaStep alpha ch.ema bit⟩ := by
  simp [stepChannel, hysteresisStep, hact, not_le.mpr h]

theorem stepChannel_active_fall (thetaOn thetaOff : ℚ) (tau : Nat) (alpha : ℚ)
    (ch : Channel) (bit : ℚ) (hact : ch.state = true)
    (h : emaStep alpha ch.ema bit ≤ thetaOff) :
    stepChannel thetaOn thetaOff tau alpha ch bit =
      ⟨false, 0, emaStep alpha ch.ema bit⟩ := by
  simp [stepChannel, hysteresisStep, hact, h]

theorem runChannel_active_of_above (thetaOn thetaOff : ℚ) (tau : Nat) (alpha : ℚ) :
    ∀ (obs : List ℚ) (ch : Channel), ch.state = true →
      (∀ i, i < obs.length →
        thetaOff < (runChannel thetaOn thetaOff tau alpha ch (obs.take (i + 1))).ema) →
      (runChannel thetaOn thetaOff tau alpha ch obs).state = true
  | [], ch, hact, _ => hact
  | b :: obs, ch, hact, hhigh => by
      have h0 : thetaOff < emaStep alpha ch.ema b := by
        have := hhigh 0 (Nat.succ_pos _)
        simpa [runChannel, stepChannel_ema] using this
      have hstep := stepChannel_active_stay thetaOn thetaOff tau alpha ch b hact h0
      rw [runChannel_cons]
      refine runChannel_active_of_above thetaOn thetaOff tau alpha obs _ (by rw [hstep]) ?_
      intro i hi
      have := hhigh (i + 1) (by simpa using Nat.succ_lt_succ hi)
      simpa [List.take_succ_cons, runChannel_cons] using this

/-- C1: hysteresis retention.  For every configuration with theta_off <
theta_on, a channel that is ACTIVE stays ACTIVE through every further update
whose post-EMA smoothed probability remains strictly above theta_off, and an
update whose post-EMA smoothed probability is at most theta_off switches the
channel to INACTIVE with dwell count 0 immediately, with no dwell delay. -/
theorem hysteresis_retention (thetaOn thetaOff : ℚ) (tau : Nat) (alpha : ℚ)
    (hconf : thetaOff < thetaOn) (ch : Channel) (hact : ch.state = true)
    (obs : List ℚ)
    (hhigh : ∀ i, i < obs.length →
      thetaOff < (runChannel thetaOn thetaOff tau alpha ch (obs.take (i + 1))).ema)
    (bit : ℚ) (hfall : emaStep alpha ch.ema bit ≤ thetaOff) :
    (runChannel thetaOn thetaOff tau alpha ch obs).state = true ∧
    stepChannel thetaOn thetaOff tau alpha ch bit =
      ⟨false, 0, emaStep alpha ch.ema bit⟩ :=
  ⟨runChannel_active_of_above thetaOn thetaOff tau alpha obs ch hact hhigh,
   stepChannel_active_fall thetaOn thetaOff tau alpha ch bit hact hfall⟩

theorem hysteresis_retention_witness :
    ((3 : ℚ)/10 < 8/10 ∧ (Channel.mk true 0 1).state = true ∧
      (∀ i, i < ([1, 0] : List ℚ).length →
        (3 : ℚ)/10 <
          (runChannel (8/10) (3/10) 10 (1/10) ⟨true, 0, 1⟩
            (([1, 0] : List ℚ).take (i + 1))).ema) ∧
      emaStep (1/10) (Channel.mk true 0 1).ema (-6) ≤ (3 : ℚ)/10) ∧
    ((runChannel (8/10) (3/10) 10 (1/10) ⟨true, 0, 1⟩ [1, 0]).state = true ∧
      stepChannel (8/10) (3/10) 10 (1/10) ⟨true, 0, 1⟩ (-6) =
        ⟨false, 0, emaStep (1/10) (Channel.mk true 0 1).ema (-6)⟩) := by
  have hconf : (3 : ℚ)/10 < 8/10 := by norm_num
  have hact : (Channel.mk true 0 1).state = true := rfl
  have hhigh : ∀ i, i < ([1, 0] : List ℚ).length →
      (3 : ℚ)/10 <
        (runChannel (8/10) (3/10) 10 (1/10) ⟨true, 0, 1⟩
          (([1, 0] : List ℚ).take (i + 1))).ema := by
    intro i hi
    simp only [List.length_cons, List.length_nil] at hi
    match i, hi with
    | 0, _ => norm_num [runChannel, stepChannel, hysteresisStep, emaStep]
    | 1, _ => norm_num [runChannel, stepChannel, hysteresisStep, emaStep]
  have hfall : emaStep (1/10) (Channel.mk true 0 1).ema (-6) ≤ (3 : ℚ)/10 := by
    norm_num [emaStep]
  exact ⟨⟨hconf, hact, hhigh, hfall⟩,
    hysteresis_retention (8/10) (3/10) 10 (1/10) hconf ⟨true, 0, 1⟩ hact [1, 0] hhigh
      (-6) hfall⟩

theorem stepChannel_inactive_high_act (thetaOn thetaOff : ℚ) (tau : Nat) (alpha : ℚ)
    (ch : Channel) (bit : ℚ) (hin : ch.state = false)
    (hP : thetaOn ≤ emaStep alpha ch.ema bit) (hd : tau ≤ ch.dwell + 1) :
    stepChannel thetaOn thetaOff tau alpha ch bit =
      ⟨true, 0, emaStep alpha ch.ema bit⟩ := by
  simp [stepChannel, hysteresisStep, hin, hP, hd]

theorem stepChannel_inactive_high_wait (thetaOn thetaOff : ℚ) (tau : Nat) (alpha : ℚ)
    (ch : Channel) (bit : ℚ) (hin : ch.state = false)
    (hP : thetaOn ≤ emaStep alpha ch.ema bit) (hd : ¬ tau ≤ ch.dwell + 1) :
    stepChannel thetaOn thetaOff tau alpha ch bit =
      ⟨false, ch.dwell + 1, emaStep alpha ch.ema bit⟩ := by
  simp [stepChannel, hysteresisStep, hin, hP, hd]

theorem stepChannel_inactive_low (thetaOn thetaOff : ℚ) (tau : Nat) (alpha : ℚ)
    (ch : Channel) (bit : ℚ) (hin : ch.state = false)
    (hP : emaStep alpha ch.ema bit < thetaOn) :
    stepChannel thetaOn thetaOff tau alpha ch bit =
      ⟨false, 0, emaStep alpha ch.ema bit⟩ := by
  simp [stepChannel, hysteresisStep, hin, not_le.mpr hP]

theorem runChannel_inactive_count (thetaOn thetaOff : ℚ) (tau : Nat) (alpha : ℚ) :
    ∀ (obs : List ℚ) (ch : Channel), ch.state = false → ch.dwell < tau →
      (∀ i, i < obs.length →
        thetaOn ≤ (runChannel thetaOn thetaOff tau alpha ch (obs.take (i + 1))).ema) →
      ch.dwell + obs.length ≤ tau →
      (ch.dwell + obs.length < tau →
        (runChannel thetaOn thetaOff tau alpha ch obs).state = false ∧
        (runChannel thetaOn thetaOff tau alpha ch obs).dwell = ch.dwell + obs.length) ∧
      (ch.dwell + obs.length = tau →
        (runChannel thetaOn thetaOff tau alpha ch obs).state = true ∧
        (runChannel thetaOn thetaOff tau alpha ch obs).dwell = 0)
  | [], ch, hin, hdw, _, _ => by
      refine ⟨fun _ => ⟨hin, by simp [runChannel]⟩, fun h => ?_⟩
      exfalso
      simp only [List.length_nil, Nat.add_zero] at h
      omega
  | b :: obs, ch, hin, hdw, hhigh, hlen => by
      have hP : thetaOn ≤ emaStep alpha ch.ema b := by
        simpa [runChannel, stepChannel_ema] using hhigh 0 (Nat.succ_pos _)
      by_cases hact : tau ≤ ch.dwell + 1
      · have heq : ch.dwell + 1 = tau := by omega
        have hobs : obs = [] := by
          have := hlen
          simp only [List.length_cons] at this
          have : obs.length = 0 := by omega
          exact List.length_eq_zero.mp this
        subst hobs
        rw [runChannel_cons,
          stepChannel_inactive_high_act thetaOn thetaOff tau alpha ch b hin hP hact]
        refine ⟨fun h => ?_, fun _ => ⟨rfl, rfl⟩⟩
        exfalso
        simp only [List.length_cons, List.length_nil] at h
        omega
      · have hstep :=
          stepChannel_inactive_high_wait thetaOn thetaOff tau alpha ch b hin hP hact
        have hrec := runChannel_inactive_count thetaOn thetaOff tau alpha obs
          (stepChannel thetaOn thetaOff tau alpha ch b)
          (by rw [hstep]) (by rw [hstep]; simpa using by omega)
          (fun i hi => by
            have := hhigh (i + 1) (by simpa using Nat.succ_lt_succ hi)
            simpa [List.take_succ_cons, runChannel_cons] using this)
          (by rw [hstep]; simp only [List.length_cons] at hlen ⊢; omega)
        rw [runChannel_cons]
        refine ⟨fun h => ?_, fun h => ?_⟩
        · have := hrec.1 (by rw [hstep]; simp only [List.length_cons] at h ⊢; omega)
          refine ⟨this.1, ?_⟩
          rw [this.2, hstep]
          simp only [List.length_cons]
          omega
        · exact hrec.2 (by rw [hstep]; simp only [List.length_cons] at h ⊢; omega)

/-- C2: dwell-time activation.  While a channel is INACTIVE, an update whose
post-EMA smoothed probability reaches theta_on increments the dwell count,
activating (with the dwell count reset to 0) exactly when the count reaches
tau, and an update whose post-EMA smoothed probability is below theta_on
resets the dwell count to 0 from ANY accumulated value, so no partial dwell
credit survives an interruption; consequently, starting from dwell count 0,
a run of k consecutive qualifying updates leaves the channel INACTIVE with
dwell count k for k < tau and ACTIVE with dwell count 0 for k = tau.  The
per-step conjuncts hold for a channel with an arbitrary dwell count ch, the
run conjuncts for a channel ch2 starting at dwell count 0. -/
theorem dwell_time_activation (thetaOn thetaOff : ℚ) (tau : Nat) (alpha : ℚ)
    (ch : Channel) (bit : ℚ) (ch2 : Channel) (obs : List ℚ)
    (htau : 1 ≤ tau) (hin : ch.state = false)
    (hin2 : ch2.state = false) (hdw2 : ch2.dwell = 0)
    (hhigh : ∀ i, i < obs.length →
      thetaOn ≤ (runChannel thetaOn thetaOff tau alpha ch2 (obs.take (i + 1))).ema)
    (hlen : obs.length ≤ tau) :
    (thetaOn ≤ emaStep alpha ch.ema bit → tau ≤ ch.dwell + 1 →
      stepChannel thetaOn thetaOff tau alpha ch bit =
        ⟨true, 0, emaStep alpha ch.ema bit⟩) ∧
    (thetaOn ≤ emaStep alpha ch.ema bit → ch.dwell + 1 < tau →
      stepChannel thetaOn thetaOff tau alpha ch bit =
        ⟨false, ch.dwell + 1, emaStep alpha ch.ema bit⟩) ∧
    (emaStep alpha ch.ema bit < thetaOn →
      stepChannel thetaOn thetaOff tau alpha ch bit =
        ⟨false, 0, emaStep alpha ch.ema bit⟩) ∧
    (obs.length < tau →
      (runChannel thetaOn thetaOff tau alpha ch2 obs).state = false ∧
      (runChannel thetaOn thetaOff tau alpha ch2 obs).dwell = obs.length) ∧
    (obs.length = tau →
      (runChannel thetaOn thetaOff tau alpha ch2 obs).state = true ∧
      (runChannel thetaOn thetaOff tau alpha ch2 obs).dwell = 0) := by
  have hcount := runChannel_inactive_count thetaOn thetaOff tau alpha obs ch2 hin2
    (by omega) hhigh (by omega)
  refine ⟨fun hP hd => stepChannel_inactive_high_act thetaOn thetaOff tau alpha ch bit hin hP hd,
    fun hP hd => stepChannel_inactive_high_wait thetaOn thetaOff tau alpha ch bit hin hP (by omega),
    fun hP => stepChannel_inactive_low thetaOn thetaOff tau alpha ch bit hin hP,
    fun h => ?_, fun h => hcount.2 (by omega)⟩
  have := hcount.1 (by omega)
  exact ⟨this.1, by rw [this.2, hdw2, Nat.zero_add]⟩

theorem dwell_time_activation_witness :
    ((1 : Nat) ≤ 3 ∧ (Channel.mk false 2 0).state = false ∧
      (Channel.mk false 0 0).state = false ∧ (Channel.mk false 0 0).dwell = 0 ∧
      (∀ i, i < ([1, 1, 1] : List ℚ).length →
        (1 : ℚ)/2 ≤ (runChannel (1/2) 0 3 (1/2) ⟨false, 0, 0⟩
          (([1, 1, 1] : List ℚ).take (i + 1))).ema) ∧
      ([1, 1, 1] : List ℚ).length ≤ 3 ∧
      emaStep (1/2) (Channel.mk false 2 0).ema 0 < 1/2) ∧
    ((emaStep (1/2) (Channel.mk false 2 0).ema 0 < 1/2 →
        stepChannel (1/2) 0 3 (1/2) ⟨false, 2, 0⟩ 0 =
          ⟨false, 0, emaStep (1/2) (Channel.mk false 2 0).ema 0⟩) ∧
      (([1, 1, 1] : List ℚ).length = 3 →
        (runChannel (1/2) 0 3 (1/2) ⟨false, 0, 0⟩ [1, 1, 1]).state = true ∧
        (runChannel (1/2) 0 3 (1/2) ⟨false, 0, 0⟩ [1, 1, 1]).dwell = 0)) := by
  have hhigh : ∀ i, i < ([1, 1, 1] : List ℚ).length →
      (1 : ℚ)/2 ≤ (runChannel (1/2) 0 3 (1/2) ⟨false, 0, 0⟩
        (([1, 1, 1] : List ℚ).take (i + 1))).ema := by
    intro i hi
    simp only [List.length_cons, List.length_nil] at hi
    match i, hi with
    | 0, _ => norm_num [runChannel, stepChannel, hysteresisStep, emaStep]
    | 1, _ => norm_num [runChannel, stepChannel, hysteresisStep, emaStep]
    | 2, _ => norm_num [runChannel, stepChannel, hysteresisStep, emaStep]
  have hfall : emaStep (1/2) (Channel.mk false 2 0).ema 0 < 1/2 := by
    norm_num [emaStep]
  have hmain := dwell_time_activation (1/2) 0 3 (1/2) ⟨false, 2, 0⟩ 0 ⟨false, 0, 0⟩
    [1, 1, 1] (by norm_num) rfl rfl rfl hhigh (by norm_num)
  exact ⟨⟨by norm_num, rfl, rfl, rfl, hhigh, by norm_num, hfall⟩,
    hmain.2.2.1, hmain.2.2.2.2⟩

/-- Preservation of the dwell invariant by one hysteresis transition: the
dwell count stays below tau and is 0 whenever the resulting state is
ACTIVE. -/
theorem hysteresisStep_inv (thetaOn thetaOff : ℚ) (tau : Nat) (st : Bool) (dw : Nat)
    (P : ℚ) (htau : 1 ≤ tau) (hinv : dw < tau ∧ (st = true → dw = 0)) :
    (hysteresisStep thetaOn thetaOff tau st dw P).2 < tau ∧
    ((hysteresisStep thetaOn thetaOff tau st dw P).1 = true →
      (hysteresisStep thetaOn thetaOff tau st dw P).2 = 0) := by
  rcases hinv with ⟨ha, hb⟩
  unfold hysteresisStep
  cases st
  · rw [if_pos rfl]
    split_ifs with h1 h2
    · exact ⟨by show (0 : Nat) < tau; omega, fun _ => rfl⟩
    · exact ⟨by show dw + 1 < tau; omega, by simp⟩
    · exact ⟨by show (0 : Nat) < tau; omega, fun _ => rfl⟩
  · rw [if_neg (by simp)]
    split_ifs with h1
    · exact ⟨by show (0 : Nat) < tau; omega, fun _ => rfl⟩
    · exact ⟨ha, fun _ => hb rfl⟩

/-- Preservation of the dwell invariant by the per-stabilizer loop of
H2QFilter.update. -/
theorem channelLoop_inv (thetaOn thetaOff : ℚ) (tau : Nat) (htau : 1 ≤ tau) :
    ∀ (sts : List Bool) (dws : List Nat) (Ps : List ℚ),
      (∀ pr ∈ sts.zip dws, pr.2 < tau ∧ (pr.1 = true → pr.2 = 0)) →
      ∀ r ∈ channelLoop thetaOn thetaOff tau sts dws Ps,
        r.2 < tau ∧ (r.1 = true → r.2 = 0)
  | st :: sts, dw :: dws, P :: Ps, h, r, hr => by
      rw [channelLoop] at hr
      rcases List.mem_cons.mp hr with hr | hr
      · subst hr
        exact hysteresisStep_inv thetaOn thetaOff tau st dw P htau
          (h (st, dw) (by simp [List.zip_cons_cons]))
      · exact channelLoop_inv thetaOn thetaOff tau htau sts dws Ps
          (fun pr hpr => h pr (by simp [List.zip_cons_cons, hpr])) r hr
  | [], _, _, _, r, hr => by simp [channelLoop] at hr
  | _ :: _, [], _, _, r, hr => by simp [channelLoop] at hr
  | _ :: _, _ :: _, [], _, r, hr => by simp [channelLoop] at hr

/-- Configuration field tau is never changed by reset or update, so every
reachable filter still carries the constructed dwell requirement. -/
theorem reachable_tau_eq (theta_on theta_off : ℚ) (tau : Nat) (f : H2QFilter)
    (hr : ReachableH2Q theta_on theta_off tau f) : f.tau = tau := by
  induction hr with
  | init => rfl
  | reset g _ ih => exact ih
  | update_ok g g' raw out _ _ hok ih =>
      simp only [H2QFilter.update] at hok
      split at hok
      · exact absurd hok (by simp)
      · simp only [Except.ok.injEq, Prod.mk.injEq] at hok
        rw [← hok.1]
        exact ih

/-- C10: dwell-state invariant.  For tau at least 1, in every filter state
reachable from construction via reset calls and correctly-sized successful
update calls, every channel's dwell count is strictly below tau (it is a
natural number, so also at least 0), and the dwell count is 0 whenever the
channel is ACTIVE: partial dwell credit never persists into or through the
ACTIVE state. -/
theorem dwell_state_invariant (theta_on theta_off : ℚ) (tau : Nat) (f : H2QFilter)
    (htau : 1 ≤ tau) (hr : ReachableH2Q theta_on theta_off tau f) :
    ∀ pr ∈ f.state.zip f.dwell, pr.2 < tau ∧ (pr.1 = true → pr.2 = 0) := by
  induction hr with
  | init =>
      rintro ⟨a, b⟩ hpr
      obtain ⟨ha, hb⟩ := List.of_mem_zip hpr
      have ha' := List.eq_of_mem_replicate ha
      have hb' := List.eq_of_mem_replicate hb
      subst ha' hb'
      exact ⟨by omega, fun _ => rfl⟩
  | reset g _ _ =>
      rintro ⟨a, b⟩ hpr
      obtain ⟨ha, hb⟩ := List.of_mem_zip hpr
      have ha' := List.eq_of_mem_replicate ha
      have hb' := List.eq_of_mem_replicate hb
      subst ha' hb'
      exact ⟨by omega, fun _ => rfl⟩
  | update_ok g g' raw out hg _ hok ih =>
      have htg : g.tau = tau := reachable_tau_eq theta_on theta_off tau g hg
      simp only [H2QFilter.update] at hok
      split at hok
      · exact absurd hok (by simp)
      · simp only [Except.ok.injEq, Prod.mk.injEq] at hok
        rw [← hok.1]
        intro pr hpr
        have hz :
            ((channelLoop g.theta_on g.theta_off g.tau g.state g.dwell
                (updateEmaList g.ema_alpha g.ema raw)).map Prod.fst).zip
              ((channelLoop g.theta_on g.theta_off g.tau g.state g.dwell
                (updateEmaList g.ema_alpha g.ema raw)).map Prod.snd) =
            channelLoop g.theta_on g.theta_off g.tau g.state g.dwell
              (updateEmaList g.ema_alpha g.ema raw) := by
          have hu := List.unzip_eq_map (channelLoop g.theta_on g.theta_off g.tau
            g.state g.dwell (updateEmaList g.ema_alpha g.ema raw))
          calc ((channelLoop g.theta_on g.theta_off g.tau g.state g.dwell
                  (updateEmaList g.ema_alpha g.ema raw)).map Prod.fst).zip
                ((channelLoop g.theta_on g.theta_off g.tau g.state g.dwell
                  (updateEmaList g.ema_alpha g.ema raw)).map Prod.snd)
              = ((channelLoop g.theta_on g.theta_off g.tau g.state g.dwell
                  (updateEmaList g.ema_alpha g.ema raw)).unzip.1).zip
                ((channelLoop g.theta_on g.theta_off g.tau g.state g.dwell
                  (updateEmaList g.ema_alpha g.ema raw)).unzip.2) := by rw [hu]
            _ = channelLoop g.theta_on g.theta_off g.tau g.state g.dwell
                  (updateEmaList g.ema_alpha g.ema raw) := List.zip_unzip _
        rw [hz] at hpr
        have hres := channelLoop_inv g.theta_on g.theta_off g.tau (by omega)
          g.state g.dwell (updateEmaList g.ema_alpha g.ema raw)
          (fun q hq => ⟨by have := (ih q hq).1; omega, (ih q hq).2⟩) pr hpr
        exact ⟨by have := hres.1; omega, hres.2⟩

theorem dwell_state_invariant_witness :
    ((1 : Nat) ≤ 10 ∧ ReachableH2Q (8/10) (3/10) 10 (mkH2QFilter (8/10) (3/10) 10)) ∧
    ∀ pr ∈ (mkH2QFilter (8/10) (3/10) 10).state.zip (mkH2QFilter (8/10) (3/10) 10).dwell,
      pr.2 < 10 ∧ (pr.1 = true → pr.2 = 0) :=
  ⟨⟨by norm_num, ReachableH2Q.init⟩,
   dwell_state_invariant (8/10) (3/10) 10 (mkH2QFilter (8/10) (3/10) 10)
     (by norm_num) ReachableH2Q.init⟩

/-- C5 counterexample: update performs no input-shape validation.  On the
freshly constructed two-channel filter, an update with a one-element
observation vector (wrong channel count) succeeds instead of failing, and an
update with a three-element vector fails with the IndexError modelled here
only after both existing channels' EMAs have been overwritten (the error
payload differs from the original state), so the claimed InvalidInputShape
error and the claimed state preservation both fail on the code. -/
theorem update_shape_counterexample :
    ([1] : List ℚ).length ≠ (mkH2QFilter (8/10) (3/10) 10).num_stabilizers ∧
    ((mkH2QFilter (8/10) (3/10) 10).update [1]).isOk = true ∧
    (mkH2QFilter (8/10) (3/10) 10).update [1, 1, 1] =
      .error { mkH2QFilter (8/10) (3/10) 10 with ema := [1/10, 1/10] } ∧
    ([1/10, 1/10] : List ℚ) ≠ (mkH2QFilter (8/10) (3/10) 10).ema := by
  refine ⟨by norm_num [mkH2QFilter], ?_, ?_, ?_⟩
  · rfl
  · norm_num [H2QFilter.update, mkH2QFilter, updateEmaList, emaStep, channelLoop,
      hysteresisStep, List.replicate]
  · norm_num [mkH2QFilter, List.replicate]

/-- C5 amended: update never validates the shape of its input.  Any
observation vector no longer than the EMA list is processed successfully
(channels beyond the end of the input keep a stale EMA), and only a longer
vector fails, via the IndexError of the EMA loop; on success only the
per-channel lists change, while every configuration field is preserved. -/
theorem update_shape_amended (f : H2QFilter) (raw : List ℚ)
    (hsz : raw.length ≤ f.ema.length) :
    ∃ f' out, f.update raw = .ok (f', out) ∧
      f'.theta_on = f.theta_on ∧ f'.theta_off = f.theta_off ∧ f'.tau = f.tau ∧
      f'.num_stabilizers = f.num_stabilizers ∧ f'.ema_alpha = f.ema_alpha := by
  unfold H2QFilter.update
  rw [if_neg (by omega)]
  exact ⟨_, _, rfl, rfl, rfl, rfl, rfl, rfl⟩

theorem update_shape_amended_witness :
    ([1, 1] : List ℚ).length ≤ (mkH2QFilter (8/10) (3/10) 10).ema.length ∧
    ∃ f' out, (mkH2QFilter (8/10) (3/10) 10).update [1, 1] = .ok (f', out) ∧
      f'.theta_on = (mkH2QFilter (8/10) (3/10) 10).theta_on ∧
      f'.theta_off = (mkH2QFilter (8/10) (3/10) 10).theta_off ∧
      f'.tau = (mkH2QFilter (8/10) (3/10) 10).tau ∧
      f'.num_stabilizers = (mkH2QFilter (8/10) (3/10) 10).num_stabilizers ∧
      f'.ema_alpha = (mkH2QFilter (8/10) (3/10) 10).ema_alpha :=
  ⟨by norm_num [mkH2QFilter], update_shape_amended (mkH2QFilter (8/10) (3/10) 10) [1, 1]
    (by norm_num [mkH2QFilter])⟩

/-- C4 counterexample: neither constructor validates the threshold ordering.
Constructing the filter and the mitigator with theta_on = 3/10 and
theta_off = 8/10 (violating theta_off < theta_on) succeeds, the invalid
thresholds are stored verbatim, and the resulting filter even processes
updates, so no InvalidConfiguration failure exists in the code. -/
theorem config_validation_counterexample :
    (mkH2QFilter (3/10) (8/10) 10).theta_on = 3/10 ∧
    (mkH2QFilter (3/10) (8/10) 10).theta_off = 8/10 ∧
    ¬ (mkH2QFilter (3/10) (8/10) 10).theta_off < (mkH2QFilter (3/10) (8/10) 10).theta_on ∧
    ((mkH2QFilter (3/10) (8/10) 10).update [1, 1]).isOk = true ∧
    (mkH2QMitigator (3/10) (8/10) 10).theta_off = 8/10 := by
  refine ⟨rfl, rfl, by norm_num [mkH2QFilter], rfl, rfl⟩

/-- C4 amended: construction never fails and never clamps.  Both
constructors accept every parameter combination, including any with
theta_on at most theta_off, store the thresholds unchanged, initialize the
filter state to two INACTIVE channels with zero dwell and zero EMA, and the
resulting filter accepts update calls. -/
theorem config_validation_amended (theta_on theta_off : ℚ) (tau : Nat)
    (hviol : theta_on ≤ theta_off) :
    (mkH2QFilter theta_on theta_off tau).theta_on = theta_on ∧
    (mkH2QFilter theta_on theta_off tau).theta_off = theta_off ∧
    (mkH2QFilter theta_on theta_off tau).tau = tau ∧
    (mkH2QFilter theta_on theta_off tau).state = [false, false] ∧
    (mkH2QFilter theta_on theta_off tau).dwell = [0, 0] ∧
    (mkH2QFilter theta_on theta_off tau).ema = [0, 0] ∧
    (mkH2QMitigator theta_on theta_off tau).theta_on = theta_on ∧
    (mkH2QMitigator theta_on theta_off tau).theta_off = theta_off ∧
    ((mkH2QFilter theta_on theta_off tau).update [1, 1]).isOk = true :=
  ⟨rfl, rfl, rfl, rfl, rfl, rfl, rfl, rfl, rfl⟩

theorem config_validation_amended_witness :
    (3 : ℚ)/10 ≤ 8/10 ∧
    ((mkH2QFilter (3/10) (8/10) 20).theta_on = 3/10 ∧
     (mkH2QFilter (3/10) (8/10) 20).theta_off = 8/10 ∧
     (mkH2QFilter (3/10) (8/10) 20).tau = 20 ∧
     (mkH2QFilter (3/10) (8/10) 20).state = [false, false] ∧
     (mkH2QFilter (3/10) (8/10) 20).dwell = [0, 0] ∧
     (mkH2QFilter (3/10) (8/10) 20).ema = [0, 0] ∧
     (mkH2QMitigator (3/10) (8/10) 20).theta_on = 3/10 ∧
     (mkH2QMitigator (3/10) (8/10) 20).theta_off = 8/10 ∧
     ((mkH2QFilter (3/10) (8/10) 20).update [1, 1]).isOk = true) :=
  ⟨by norm_num, config_validation_amended (3/10) (8/10) 20 (by norm_num)⟩

theorem listMax_nonneg (l : List ℚ) : 0 ≤ l.foldr max 0 := by
  induction l with
  | nil => exact le_refl 0
  | cons v rest ih => exact le_max_of_le_right ih

theorem le_listMax (l : List ℚ) (x : ℚ) (hx : x ∈ l) : x ≤ l.foldr max 0 := by
  induction l with
  | nil => simp at hx
  | cons v rest ih =>
      rcases List.mem_cons.mp hx with rfl | hx
      · exact le_max_left _ _
      · exact le_max_of_le_right (ih hx)

theorem listMax_le (l : List ℚ) (c : ℚ) (hc : 0 ≤ c) (h : ∀ x ∈ l, x ≤ c) :
    l.foldr max 0 ≤ c := by
  induction l with
  | nil => exact hc
  | cons v rest ih =>
      exact max_le (h v (List.mem_cons_self _ _))
        (ih fun x hx => h x (List.mem_cons_of_mem _ hx))

theorem listMax_mem (l : List ℚ) (h : 0 < l.foldr max 0) : l.foldr max 0 ∈ l := by
  induction l with
  | nil => simp at h
  | cons v rest ih =>
      by_cases hle : v ≤ rest.foldr max 0
      · have hm : (v :: rest).foldr max 0 = rest.foldr max 0 := by
          simp [List.foldr_cons, max_eq_right hle]
        rw [hm] at h ⊢
        exact List.mem_cons_of_mem _ (ih h)
      · have hm : (v :: rest).foldr max 0 = v := by
          simp [List.foldr_cons, max_eq_left (le_of_not_le hle)]
        rw [hm]
        exact List.mem_cons_self _ _

theorem listSum_div {K : Type} [DivisionRing K] (l : List K) (c : K) :
    (l.map (fun x => x / c)).sum = l.sum / c := by
  induction l with
  | nil => simp
  | cons v rest ih => simp [ih, add_div]

theorem listMax_div (l : List ℚ) (c : ℚ) (hc : 0 < c) :
    (l.map (fun x => x / c)).foldr max 0 = l.foldr max 0 / c := by
  induction l with
  | nil => simp
  | cons v rest ih => simp [ih, max_div_div_right hc.le]

theorem retained_max_mem (theta_off : ℚ) (h : List (String × ℚ))
    (hm : 0 < maxCountQ h) (hoff : theta_off < 1) :
    ∃ kv, kv ∈ h.filter (fun kv => decide (theta_off < kv.2 / maxCountQ h)) ∧
      kv.2 = maxCountQ h := by
  have hmem : maxCountQ h ∈ h.map Prod.snd := listMax_mem _ hm
  obtain ⟨kv, hkv, hkv2⟩ := List.mem_map.mp hmem
  refine ⟨kv, List.mem_filter.mpr ⟨hkv, ?_⟩, hkv2⟩
  simp only [decide_eq_true_eq]
  rw [hkv2, div_self (ne_of_gt hm)]
  exact hoff

theorem retained_sum_pos (theta_off : ℚ) (h : List (String × ℚ))
    (hvals : ∀ kv ∈ h, 0 ≤ kv.2) (hm : 0 < maxCountQ h) (hoff : theta_off < 1) :
    0 < ((h.filter (fun kv => decide (theta_off < kv.2 / maxCountQ h))).map Prod.snd).sum := by
  obtain ⟨kv, hkv, hkv2⟩ := retained_max_mem theta_off h hm hoff
  have h1 : maxCountQ h ∈
      (h.filter (fun kv => decide (theta_off < kv.2 / maxCountQ h))).map Prod.snd :=
    List.mem_map.mpr ⟨kv, hkv, hkv2⟩
  have h2 : ∀ x ∈ (h.filter (fun kv => decide (theta_off < kv.2 / maxCountQ h))).map
      Prod.snd, 0 ≤ x := by
    intro x hx
    obtain ⟨kv', hkv', rfl⟩ := List.mem_map.mp hx
    exact hvals kv' (List.mem_of_mem_filter hkv')
  exact lt_of_lt_of_le hm (List.single_le_sum h2 _ h1)

theorem map_snd_map_div (l : List (String × ℚ)) (c : ℚ) :
    ((l.map (fun kv => (kv.1, kv.2 / c))).map Prod.snd) =
      (l.map Prod.snd).map (fun x => x / c) := by
  simp only [List.map_map]
  rfl

theorem minimize_sum_eq_one (theta_off : ℚ) (h : List (String × ℚ))
    (hvals : ∀ kv ∈ h, 0 ≤ kv.2) (hm : 0 < maxCountQ h) (hoff : theta_off < 1) :
    ((minimizeFreeEnergyQ theta_off h).map Prod.snd).sum = 1 := by
  have hnt := retained_sum_pos theta_off h hvals hm hoff
  simp only [minimizeFreeEnergyQ]
  rw [map_snd_map_div, listSum_div, div_self (ne_of_gt hnt)]

/-- C3: population-threshold filtering.  For every histogram with at least
one positive count (so the maximum count is positive) and a cutoff below 1,
the filter stage of minimize_free_energy retains an entry iff its count
divided by the maximum count strictly exceeds theta_off, and the
renormalized output probabilities sum exactly to 1. -/
theorem population_threshold_filter (M : H2QMitigator) (raw_counts : List (String × Nat))
    (hpos : 0 < maxCountQ (raw_counts.map (fun kv => (kv.1, (kv.2 : ℚ)))))
    (hoff : M.theta_off < 1) :
    (∀ kv : String × ℚ, kv ∈ raw_counts.map (fun kv => (kv.1, (kv.2 : ℚ))) →
      (kv ∈ (raw_counts.map (fun kv => (kv.1, (kv.2 : ℚ)))).filter
          (fun x => decide (M.theta_off <
            x.2 / maxCountQ (raw_counts.map (fun kv => (kv.1, (kv.2 : ℚ)))))) ↔
        M.theta_off <
          kv.2 / maxCountQ (raw_counts.map (fun kv => (kv.1, (kv.2 : ℚ)))))) ∧
    ((M.minimize_free_energy raw_counts).map Prod.snd).sum = 1 := by
  constructor
  · intro kv hkv
    rw [List.mem_filter]
    simp [hkv]
  · unfold H2QMitigator.minimize_free_energy
    apply minimize_sum_eq_one _ _ _ hpos hoff
    intro kv hkv
    obtain ⟨kv', _, rfl⟩ := List.mem_map.mp hkv
    exact Rat.num_nonneg.mp (by positivity)

theorem population_threshold_filter_witness :
    (0 < maxCountQ ([("00", 100), ("11", 90)].map (fun kv => (kv.1, (kv.2 : ℚ)))) ∧
      (mkH2QMitigator (8/10) (1/2) 10).theta_off < 1) ∧
    (((mkH2QMitigator (8/10) (1/2) 10).minimize_free_energy
        [("00", 100), ("11", 90)]).map Prod.snd).sum = 1 ∧
    (mkH2QMitigator (8/10) (1/2) 10).minimize_free_energy [("00", 100), ("11", 90)] =
      [("00", 100/190), ("11", 90/190)] := by
  have hpos : 0 < maxCountQ ([("00", 100), ("11", 90)].map (fun kv => (kv.1, (kv.2 : ℚ)))) := by
    norm_num [maxCountQ]
  have hoff : (mkH2QMitigator (8/10) (1/2) 10).theta_off < 1 := by
    norm_num [mkH2QMitigator]
  refine ⟨⟨hpos, hoff⟩,
    (population_threshold_filter (mkH2QMitigator (8/10) (1/2) 10)
      [("00", 100), ("11", 90)] hpos hoff).2, ?_⟩
  norm_num [H2QMitigator.minimize_free_energy, mkH2QMitigator, minimizeFreeEnergyQ,
    maxCountQ, List.filter]

/-- C6 counterexample: no non-empty fallback exists.  The histogram with the
single entry ("00", 5) has a positive total count, yet with theta_off = 1
the strict cutoff discards its only entry (its relative population is
exactly 1, not above 1) and minimize_free_energy returns the empty
distribution instead of retaining the highest-count entry. -/
theorem nonempty_fallback_counterexample :
    0 < maxCountQ ([("00", 5)].map (fun kv => (kv.1, (kv.2 : ℚ)))) ∧
    (mkH2QMitigator (8/10) 1 10).minimize_free_energy [("00", 5)] = [] := by
  constructor
  · norm_num [maxCountQ]
  · norm_num [H2QMitigator.minimize_free_energy, mkH2QMitigator, minimizeFreeEnergyQ,
      maxCountQ, List.filter]

/-- C6 amended: the code has no fallback branch.  For a histogram whose
maximum count is positive, the output distribution is non-empty exactly when
theta_off < 1: below 1 the maximal entry always survives the strict cutoff,
while for theta_off at least 1 every entry is discarded and the returned
distribution is empty. -/
theorem nonempty_fallback_amended (M : H2QMitigator) (raw_counts : List (String × Nat))
    (hpos : 0 < maxCountQ (raw_counts.map (fun kv => (kv.1, (kv.2 : ℚ))))) :
    (M.theta_off < 1 → M.minimize_free_energy raw_counts ≠ []) ∧
    (1 ≤ M.theta_off → M.minimize_free_energy raw_counts = []) := by
  constructor
  · intro hoff
    obtain ⟨kv, hkv, _⟩ := retained_max_mem M.theta_off
      (raw_counts.map (fun kv => (kv.1, (kv.2 : ℚ)))) hpos hoff
    unfold H2QMitigator.minimize_free_energy
    simp only [minimizeFreeEnergyQ]
    rw [ne_eq, List.map_eq_nil_iff]
    exact List.ne_nil_of_mem hkv
  · intro hoff
    unfold H2QMitigator.minimize_free_energy
    simp only [minimizeFreeEnergyQ]
    rw [List.map_eq_nil_iff]
    rw [List.filter_eq_nil_iff]
    intro kv hkv
    simp only [decide_eq_true_eq, not_lt]
    have hle : kv.2 ≤ maxCountQ (raw_counts.map (fun kv => (kv.1, (kv.2 : ℚ)))) :=
      le_listMax _ _ (List.mem_map.mpr ⟨kv, hkv, rfl⟩)
    calc kv.2 / maxCountQ (raw_counts.map (fun kv => (kv.1, (kv.2 : ℚ)))) ≤ 1 :=
          (div_le_one hpos).mpr hle
      _ ≤ M.theta_off := hoff

theorem nonempty_fallback_amended_witness :
    0 < maxCountQ ([("00", 100), ("11", 90)].map (fun kv => (kv.1, (kv.2 : ℚ)))) ∧
    (((mkH2QMitigator (8/10) (1/2) 10).theta_off < 1 →
        (mkH2QMitigator (8/10) (1/2) 10).minimize_free_energy [("00", 100), ("11", 90)] ≠ []) ∧
      (1 ≤ (mkH2QMitigator (8/10) (1/2) 10).theta_off →
        (mkH2QMitigator (8/10) (1/2) 10).minimize_free_energy [("00", 100), ("11", 90)] = [])) :=
  ⟨by norm_num [maxCountQ],
   nonempty_fallback_amended (mkH2QMitigator (8/10) (1/2) 10) [("00", 100), ("11", 90)]
     (by norm_num [maxCountQ])⟩

theorem maxCountQ_map_div (l : List (String × ℚ)) (c : ℚ) (hc : 0 < c) :
    maxCountQ (l.map (fun kv => (kv.1, kv.2 / c))) = maxCountQ l / c := by
  unfold maxCountQ
  rw [map_snd_map_div, listMax_div _ _ hc]

theorem minimizeQ_idempotent (theta_off : ℚ) (hq : List (String × ℚ))
    (hvals : ∀ kv ∈ hq, 0 ≤ kv.2) (hm : 0 < maxCountQ hq)
    (hne : minimizeFreeEnergyQ theta_off hq ≠ []) :
    minimizeFreeEnergyQ theta_off (minimizeFreeEnergyQ theta_off hq) =
      minimizeFreeEnergyQ theta_off hq := by
  have hoff : theta_off < 1 := by
    have hfdne : hq.filter (fun kv => decide (theta_off < kv.2 / maxCountQ hq)) ≠ [] := by
      intro hnil
      apply hne
      simp only [minimizeFreeEnergyQ, hnil, List.map_nil]
    obtain ⟨kv0, hkv0⟩ := List.exists_mem_of_ne_nil _ hfdne
    have hpkv : theta_off < kv0.2 / maxCountQ hq := by
      simpa using (List.mem_filter.mp hkv0).2
    have hle : kv0.2 / maxCountQ hq ≤ 1 :=
      (div_le_one hm).mpr
        (le_listMax _ _ (List.mem_map.mpr ⟨kv0, List.mem_of_mem_filter hkv0, rfl⟩))
    exact lt_of_lt_of_le hpkv hle
  have hnt : 0 <
      ((hq.filter (fun kv => decide (theta_off < kv.2 / maxCountQ hq))).map Prod.snd).sum :=
    retained_sum_pos theta_off hq hvals hm hoff
  have hmax_fd :
      maxCountQ (hq.filter (fun kv => decide (theta_off < kv.2 / maxCountQ hq))) =
        maxCountQ hq := by
    apply le_antisymm
    · apply listMax_le _ _ hm.le
      intro x hx
      obtain ⟨kv, hkv, rfl⟩ := List.mem_map.mp hx
      exact le_listMax _ _ (List.mem_map.mpr ⟨kv, List.mem_of_mem_filter hkv, rfl⟩)
    · obtain ⟨kv, hkv, hkv2⟩ := retained_max_mem theta_off hq hm hoff
      exact le_listMax _ _ (List.mem_map.mpr ⟨kv, hkv, hkv2⟩)
  have hout : minimizeFreeEnergyQ theta_off hq =
      (hq.filter (fun kv => decide (theta_off < kv.2 / maxCountQ hq))).map
        (fun kv => (kv.1, kv.2 /
          ((hq.filter (fun kv => decide (theta_off < kv.2 / maxCountQ hq))).map
            Prod.snd).sum)) := rfl
  have hmax_out : maxCountQ (minimizeFreeEnergyQ theta_off hq) =
      maxCountQ hq /
        ((hq.filter (fun kv => decide (theta_off < kv.2 / maxCountQ hq))).map
          Prod.snd).sum := by
    rw [hout, maxCountQ_map_div _ _ hnt, hmax_fd]
  have hsum_out : ((minimizeFreeEnergyQ theta_off hq).map Prod.snd).sum = 1 :=
    minimize_sum_eq_one theta_off hq hvals hm hoff
  have hkeep : (minimizeFreeEnergyQ theta_off hq).filter
      (fun kv => decide (theta_off <
        kv.2 / maxCountQ (minimizeFreeEnergyQ theta_off hq))) =
      minimizeFreeEnergyQ theta_off hq := by
    apply List.filter_eq_self.mpr
    intro kv' hkv'
    rw [hout] at hkv'
    obtain ⟨kv, hkv, rfl⟩ := List.mem_map.mp hkv'
    simp only [decide_eq_true_eq]
    rw [hmax_out]
    have hp : theta_off < kv.2 / maxCountQ hq := by
      simpa using (List.mem_filter.mp hkv).2
    have hrw : (kv.2 /
          ((hq.filter (fun kv => decide (theta_off < kv.2 / maxCountQ hq))).map
            Prod.snd).sum) /
        (maxCountQ hq /
          ((hq.filter (fun kv => decide (theta_off < kv.2 / maxCountQ hq))).map
            Prod.snd).sum) = kv.2 / maxCountQ hq := by
      rw [div_div_div_comm, div_self (ne_of_gt hnt), div_one]
    rw [hrw]
    exact hp
  show ((minimizeFreeEnergyQ theta_off hq).filter
      (fun kv => decide (theta_off <
        kv.2 / maxCountQ (minimizeFreeEnergyQ theta_off hq)))).map
      (fun kv => (kv.1, kv.2 / (((minimizeFreeEnergyQ theta_off hq).filter
        (fun kv => decide (theta_off <
          kv.2 / maxCountQ (minimizeFreeEnergyQ theta_off hq)))).map Prod.snd).sum)) =
    minimizeFreeEnergyQ theta_off hq
  rw [hkeep, hsum_out]
  simp [div_one]

/-- C9: idempotence of the distribution filter.  Whenever the filter
produces a non-empty output from a histogram with a positive maximum count,
applying the filter body a second time with the same theta_off to the
already-filtered renormalized distribution returns it unchanged: every
retained entry is still strictly above the cutoff relative to the new
maximum, and renormalizing a distribution that sums to 1 changes nothing. -/
theorem filter_idempotent (M : H2QMitigator) (raw_counts : List (String × Nat))
    (hpos : 0 < maxCountQ (raw_counts.map (fun kv => (kv.1, (kv.2 : ℚ)))))
    (hne : M.minimize_free_energy raw_counts ≠ []) :
    minimizeFreeEnergyQ M.theta_off (M.minimize_free_energy raw_counts) =
      M.minimize_free_energy raw_counts := by
  unfold H2QMitigator.minimize_free_energy at hne ⊢
  apply minimizeQ_idempotent _ _ _ hpos hne
  intro kv hkv
  obtain ⟨kv', _, rfl⟩ := List.mem_map.mp hkv
  positivity

theorem filter_idempotent_witness :
    (0 < maxCountQ ([("00", 100), ("11", 90)].map (fun kv => (kv.1, (kv.2 : ℚ)))) ∧
      (mkH2QMitigator (8/10) (1/2) 10).minimize_free_energy [("00", 100), ("11", 90)] ≠ []) ∧
    minimizeFreeEnergyQ (mkH2QMitigator (8/10) (1/2) 10).theta_off
      ((mkH2QMitigator (8/10) (1/2) 10).minimize_free_energy [("00", 100), ("11", 90)]) =
      (mkH2QMitigator (8/10) (1/2) 10).minimize_free_energy [("00", 100), ("11", 90)] := by
  have hpos : 0 < maxCountQ ([("00", 100), ("11", 90)].map (fun kv => (kv.1, (kv.2 : ℚ)))) := by
    norm_num [maxCountQ]
  have hne : (mkH2QMitigator (8/10) (1/2) 10).minimize_free_energy
      [("00", 100), ("11", 90)] ≠ [] := by
    have hv : (mkH2QMitigator (8/10) (1/2) 10).minimize_free_energy
        [("00", 100), ("11", 90)] = [("00", 10/19), ("11", 9/19)] := by
      norm_num [H2QMitigator.minimize_free_energy, mkH2QMitigator, minimizeFreeEnergyQ,
        maxCountQ, List.filter]
    rw [hv]
    exact List.cons_ne_nil _ _
  exact ⟨⟨hpos, hne⟩,
    filter_idempotent (mkH2QMitigator (8/10) (1/2) 10) [("00", 100), ("11", 90)] hpos hne⟩

/-- C7 counterexample: compute_observable never fails.  On the empty counts
dictionary (zero total mass) it returns the default pair (0, 1) instead of an
EmptyDistribution error, and with observable index 5 on the one-bit label
"0" (outside the bit-width) it silently skips the index and returns
expectation 1 instead of an ObservableIndexOutOfRange error. -/
theorem compute_observable_counterexample :
    compute_observable [] [0] = (0, 1) ∧
    (compute_observable [("0", 4)] [5]).1 = 1 ∧
    ¬ ((5 : Nat) < ("0" : String).length) := by
  refine ⟨?_, ?_, by decide⟩
  · simp [compute_observable]
  · have hlen : ¬ ((5 : Nat) < ("0" : String).length) := by decide
    norm_num [compute_observable, computeExpectation, labelParity, parityFactor, hlen]

/-- C7 amended: compute_observable has no error path.  Whenever the total
count is zero it returns the default pair (0, 1), and an observable index at
or beyond every label's bit-width contributes the neutral factor 1 to every
parity, so prepending such an index to the observable specification leaves
the computed expectation unchanged (the index is silently skipped). -/
theorem compute_observable_amended (counts : List (String × Nat))
    (observable_qubits : List Nat) (q : Nat) (hq : ∀ kv ∈ counts, kv.1.length ≤ q) :
    ((counts.map Prod.snd).sum = 0 →
      compute_observable counts observable_qubits = (0, 1)) ∧
    computeExpectation counts (q :: observable_qubits) =
      computeExpectation counts observable_qubits := by
  constructor
  · intro htot
    unfold compute_observable
    rw [if_pos htot]
  · have hmap : counts.map
        (fun kv => ((labelParity kv.1 (q :: observable_qubits) : ℚ)) * (kv.2 : ℚ)) =
        counts.map (fun kv => ((labelParity kv.1 observable_qubits : ℚ)) * (kv.2 : ℚ)) := by
      apply List.map_congr_left
      intro kv hkv
      have hnl : ¬ q < kv.1.length := not_lt.mpr (hq kv hkv)
      simp [labelParity, parityFactor, hnl]
    unfold computeExpectation
    rw [hmap]

theorem compute_observable_amended_witness :
    (∀ kv ∈ ([("0", 4)] : List (String × Nat)), kv.1.length ≤ 5) ∧
    ((([("0", 4)] : List (String × Nat)).map Prod.snd).sum = 0 →
      compute_observable [("0", 4)] [] = (0, 1)) ∧
    computeExpectation [("0", 4)] (5 :: []) = computeExpectation [("0", 4)] [] :=
  ⟨by decide, compute_observable_amended [("0", 4)] [] 5 (by decide)⟩

theorem listSum_eq_sum_get (l : List ℝ) (f : ℝ → ℝ) :
    (l.map f).sum = ∑ i : Fin l.length, f (l.get i) := by
  conv_lhs => rw [← List.ofFn_get l]
  rw [List.map_ofFn, List.sum_ofFn]
  simp [Function.comp]

theorem listSum_nonpos (l : List ℝ) (h : ∀ x ∈ l, x ≤ 0) : l.sum ≤ 0 := by
  induction l with
  | nil => simp
  | cons v rest ih =>
      simp only [List.sum_cons]
      have hv := h v (List.mem_cons_self _ _)
      have hr := ih fun x hx => h x (List.mem_cons_of_mem _ hx)
      linarith

/-- Jensen bound on the natural-log entropy of a finite probability list:
the entropy is at most log of the number of entries. -/
theorem neg_sum_mul_log_le (l : List ℝ) (hpos : ∀ p ∈ l, 0 < p) (hsum : l.sum = 1) :
    -((l.map (fun p => p * Real.log p)).sum) ≤ Real.log (l.length : ℝ) := by
  have hget : ∀ i : Fin l.length, 0 < l.get i := fun i => hpos _ (l.get_mem i.1 i.2)
  have hsum' : ∑ i : Fin l.length, l.get i = 1 := by
    have hmap := listSum_eq_sum_get l (fun x => x)
    rw [List.map_id'] at hmap
    rw [← hmap, hsum]
  have hjen := (strictConcaveOn_log_Ioi.concaveOn).le_map_sum
    (t := (Finset.univ : Finset (Fin l.length)))
    (w := fun i => l.get i) (p := fun i => (l.get i)⁻¹)
    (fun i _ => (hget i).le) hsum' (fun i _ => Set.mem_Ioi.mpr (inv_pos.mpr (hget i)))
  have hinner : ∑ i : Fin l.length, l.get i • (l.get i)⁻¹ = (l.length : ℝ) := by
    simp only [smul_eq_mul]
    rw [Finset.sum_congr rfl (fun i _ => mul_inv_cancel₀ (ne_of_gt (hget i)))]
    simp
  have hleft : ∑ i : Fin l.length, l.get i • Real.log ((l.get i)⁻¹) =
      -((l.map (fun p => p * Real.log p)).sum) := by
    rw [listSum_eq_sum_get l (fun p => p * Real.log p), ← Finset.sum_neg_distrib]
    apply Finset.sum_congr rfl
    intro i _
    rw [smul_eq_mul, Real.log_inv]
    ring
  rw [hleft, hinner] at hjen
  exact hjen

/-- The same bound in base 2: the base-2 entropy is at most log2 of the
number of entries. -/
theorem neg_sum_mul_logb_le (l : List ℝ) (hpos : ∀ p ∈ l, 0 < p) (hsum : l.sum = 1) :
    -((l.map (fun p => p * Real.logb 2 p)).sum) ≤ Real.logb 2 (l.length : ℝ) := by
  have hlog := neg_sum_mul_log_le l hpos hsum
  have hmap : (l.map (fun p => p * Real.logb 2 p)).sum =
      ((l.map (fun p => p * Real.log p)).sum) / Real.log 2 := by
    rw [← listSum_div, List.map_map]
    apply congrArg List.sum
    apply List.map_congr_left
    intro p _
    simp only [Function.comp]
    rw [Real.logb, mul_div_assoc]
  rw [Real.logb, hmap, ← neg_div]
  exact (div_le_div_iff_of_pos_right (Real.log_pos one_lt_two)).mpr hlog

theorem neg_sum_mul_logb_nonneg (l : List ℝ) (hpos : ∀ p ∈ l, 0 < p) (hsum : l.sum = 1) :
    0 ≤ -((l.map (fun p => p * Real.logb 2 p)).sum) := by
  rw [neg_nonneg]
  apply listSum_nonpos
  intro x hx
  obtain ⟨p, hp, rfl⟩ := List.mem_map.mp hx
  have h1 : p ≤ 1 := by
    have := List.single_le_sum (fun y hy => (hpos y hy).le) p hp
    rwa [hsum] at this
  calc p * Real.logb 2 p ≤ p * 0 :=
        mul_le_mul_of_nonneg_left (Real.logb_nonpos one_lt_two (hpos p hp).le h1)
          (hpos p hp).le
    _ = 0 := mul_zero p

/-- C8: confidence margin formula.  On every non-empty distribution with
positive entries summing to 1 (every filtered distribution), the code's
calculate_confidence_intervals computes exactly the specified formula: the
clamp of confidence to [0,1] is a no-op because the entropy lies between 0
and log2 of the entry count, and the symmetric pair ((1 - confidence) * 0.5,
(1 - confidence) * 0.5) is returned; on a single-entry distribution the
result is exactly (0, 0). -/
theorem confidence_margin_formula (M : H2QMitigator) (probs : List ℝ)
    (hne : probs ≠ []) (hpos : ∀ p ∈ probs, 0 < p) (hsum : probs.sum = 1) :
    M.calculate_confidence_intervals probs = confidenceMarginSpec probs ∧
    (probs.length = 1 → M.calculate_confidence_intervals probs = (0, 0)) := by
  have hmapeq : probs.map (fun p => if 0 < p then p * Real.logb 2 p else 0) =
      probs.map (fun p => p * Real.logb 2 p) :=
    List.map_congr_left fun p hp => by rw [if_pos (hpos p hp)]
  have hmapeq' : probs.map (fun p => if p = 0 then 0 else p * Real.logb 2 p) =
      probs.map (fun p => p * Real.logb 2 p) :=
    List.map_congr_left fun p hp => by rw [if_neg (ne_of_gt (hpos p hp))]
  have hH0 := neg_sum_mul_logb_nonneg probs hpos hsum
  have hHle := neg_sum_mul_logb_le probs hpos hsum
  have hempty : probs.isEmpty = false := by
    cases probs with
    | nil => exact absurd rfl hne
    | cons a l => rfl
  rcases Nat.lt_or_ge probs.length 2 with hn | hn
  · have hn1 : probs.length = 1 := by
      have := List.length_pos.mpr hne
      omega
    obtain ⟨p, hp⟩ := List.length_eq_one.mp hn1
    subst hp
    have hp1 : p = 1 := by simpa using hsum
    subst hp1
    constructor
    · norm_num [H2QMitigator.calculate_confidence_intervals, confidenceMarginSpec,
        Real.logb_one]
    · intro _
      norm_num [H2QMitigator.calculate_confidence_intervals, Real.logb_one]
  · have hlen1 : probs.length ≠ 1 := by omega
    have hlt : 1 < probs.length := by omega
    have hlogpos : 0 < Real.logb 2 (probs.length : ℝ) :=
      Real.logb_pos one_lt_two (by exact_mod_cast hlt)
    refine ⟨?_, fun h1 => absurd h1 hlen1⟩
    simp only [H2QMitigator.calculate_confidence_intervals, confidenceMarginSpec, hempty,
      Bool.false_eq_true, if_false, hmapeq, hmapeq', if_pos hlt, if_neg hlen1,
      if_pos hlogpos, if_neg (ne_of_gt hlogpos)]
    have hdivle : -((probs.map (fun p => p * Real.logb 2 p)).sum) /
        Real.logb 2 (probs.length : ℝ) ≤ 1 := (div_le_one hlogpos).mpr hHle
    have hdiv0 : 0 ≤ -((probs.map (fun p => p * Real.logb 2 p)).sum) /
        Real.logb 2 (probs.length : ℝ) := div_nonneg hH0 hlogpos.le
    have hclamp : max 0 (min 1 (1 - -((probs.map (fun p => p * Real.logb 2 p)).sum) /
        Real.logb 2 (probs.length : ℝ))) =
        1 - -((probs.map (fun p => p * Real.logb 2 p)).sum) /
          Real.logb 2 (probs.length : ℝ) := by
      rw [min_eq_right (by linarith), max_eq_right (by linarith)]
    rw [hclamp]

theorem confidence_margin_formula_witness :
    (([1] : List ℝ) ≠ [] ∧ (∀ p ∈ ([1] : List ℝ), 0 < p) ∧ ([1] : List ℝ).sum = 1) ∧
    (mkH2QMitigator (8/10) (3/10) 10).calculate_confidence_intervals [1] =
      confidenceMarginSpec [1] ∧
    (([1] : List ℝ).length = 1 →
      (mkH2QMitigator (8/10) (3/10) 10).calculate_confidence_intervals [1] = (0, 0)) := by
  have h1 : ([1] : List ℝ) ≠ [] := List.cons_ne_nil _ _
  have h2 : ∀ p ∈ ([1] : List ℝ), 0 < p := by
    intro p hp
    rw [List.mem_singleton] at hp
    rw [hp]
    norm_num
  have h3 : ([1] : List ℝ).sum = 1 := by simp
  exact ⟨⟨h1, h2, h3⟩,
    confidence_margin_formula (mkH2QMitigator (8/10) (3/10) 10) [1] h1 h2 h3⟩
